import Mathlib

/-!
Shallow embedding of the STEM-experiments demos: the simple-pendulum script
(Euler integration and linear regression), the two magnetism demos (dipole
field approximation), the beam-balance demo (moments and tilt angle), the
chemistry-lab demo (step-ordering flags), and the wave-interference demo
(WaveField grid). JavaScript numbers are modelled as reals (as rationals for
the regression, whose claim is about exact arithmetic); JS arrays as lists.
-/

namespace Pendulum

/-- `const G = 9.81` from the pendulum script. -/
def G : ℝ := 9.81

/-- The fields of the pendulum script's mutable `state` record. -/
structure PendulumState where
  length : ℝ
  initialAngle : ℝ
  angle : ℝ
  angularVelocity : ℝ
  angularAcceleration : ℝ
  isRunning : Bool
  startTime : ℝ
  lastCrossTime : ℝ
  oscillations : ℝ
  elapsedTime : ℝ
  lastAngle : ℝ
  dataPoints : List (ℝ × ℝ × ℝ)

open Classical in
/-- `updatePendulumPhysics(deltaTime)`: early return when not running;
otherwise one Euler step (velocity, then angle using the new velocity),
elapsed-time update, and zero-crossing oscillation counting. -/
noncomputable def updatePendulumPhysics (s : PendulumState) (deltaTime : ℝ) :
    PendulumState :=
  if s.isRunning = false then s
  else
    let L := s.length / 100
    let damping : ℝ := 0.001
    let angularAcceleration := -(G / L) * Real.sin s.angle -
      damping * s.angularVelocity
    let angularVelocity := s.angularVelocity + angularAcceleration * deltaTime
    let angle := s.angle + angularVelocity * deltaTime
    let elapsedTime := s.elapsedTime + deltaTime
    let cross :=
      if angle ≥ 0 ∧ s.lastAngle < 0 then
        if s.lastCrossTime = 0 then (s.oscillations, elapsedTime)
        else (s.oscillations + 1, s.lastCrossTime)
      else (s.oscillations, s.lastCrossTime)
    { s with
      angularAcceleration := angularAcceleration
      angularVelocity := angularVelocity
      angle := angle
      elapsedTime := elapsedTime
      oscillations := cross.1
      lastCrossTime := cross.2
      lastAngle := angle }

/-- The frame delta computed in `animate()`:
`Math.min(currentTime - lastTime, 0.02)`. -/
noncomputable def frameDelta (currentTime lastTime : ℝ) : ℝ :=
  min (currentTime - lastTime) 0.02

/-- The result record of `calculateLinearRegression`. -/
structure RegressionResult where
  slope : ℚ
  intercept : ℚ

/-- `calculateLinearRegression(x, y)`: standard least squares over the two
arrays, with `reduce`-computed sums. Modelled over ℚ (exact arithmetic). -/
def calculateLinearRegression (x y : List ℚ) : RegressionResult :=
  let n : ℚ := x.length
  let sumX := x.sum
  let sumY := y.sum
  let sumXY := (List.zipWith (fun a b => a * b) x y).sum
  let sumXX := (x.map (fun a => a * a)).sum
  let slope := (n * sumXY - sumX * sumY) / (n * sumXX - sumX * sumX)
  let intercept := (sumY - slope * sumX) / n
  ⟨slope, intercept⟩

end Pendulum

namespace Part000

/-- Field sample returned by `calculateFieldAt` in the magnetism demos. -/
structure FieldResult where
  bx : ℝ
  bz : ℝ
  strength : ℝ

open Classical in
/-- `calculateFieldAt(x, z)` of the first magnetism demo. The magnet position
and the `magnetStrength` slider value are state read inside the function,
passed here as parameters. -/
noncomputable def calculateFieldAt (magnetX magnetZ strengthSlider x z : ℝ) :
    FieldResult :=
  let dx := x - magnetX
  let dz := z - magnetZ
  let dist := Real.sqrt (dx * dx + dz * dz)
  if dist < 0.1 then ⟨0, 0, 0⟩
  else
    let magStrength := strengthSlider * 0.5
    let r3 := dist * dist * dist
    let bx := ((3 * dx * dz) / r3) * magStrength
    let bz := ((2 * dz * dz - dx * dx) / r3) * magStrength
    ⟨bx, bz, Real.sqrt (bx * bx + bz * bz)⟩

end Part000

namespace Part001

open Classical in
/-- `calculateFieldAt(x, z)` of the second magnetism demo: same dipole formula
evaluated in a coordinate frame rotated by the magnet's yaw, with fixed
`magStrength = 0.5`; the field is rotated back to world coordinates. -/
noncomputable def calculateFieldAt (magnetX magnetZ magnetRot x z : ℝ) :
    Part000.FieldResult :=
  let dx := x - magnetX
  let dz := z - magnetZ
  let cosRot := Real.cos (-magnetRot)
  let sinRot := Real.sin (-magnetRot)
  let dxRot := dx * cosRot - dz * sinRot
  let dzRot := dx * sinRot + dz * cosRot
  let dist := Real.sqrt (dx * dx + dz * dz)
  if dist < 0.1 then ⟨0, 0, 0⟩
  else
    let magStrength : ℝ := 0.5
    let r3 := dist * dist * dist
    let bxRot := ((3 * dxRot * dzRot) / r3) * magStrength
    let bzRot := ((2 * dzRot * dzRot - dxRot * dxRot) / r3) * magStrength
    let bx := bxRot * cosRot - bzRot * sinRot
    let bz := bxRot * sinRot + bzRot * cosRot
    ⟨bx, bz, Real.sqrt (bx * bx + bz * bz)⟩

/-- The `WaveField` class of the wave-interference demo: a `width × height`
grid stored in a flat array, indexed by `Math.floor(y) * width + Math.floor(x)`. -/
structure WaveField where
  width : ℕ
  height : ℕ
  field : List ℝ

open Classical in
/-- `WaveField.getValue(x, y)`: `0` outside `[0, width) × [0, height)`,
otherwise the entry at the floored flat index. -/
noncomputable def WaveField.getValue (w : WaveField) (x y : ℝ) : ℝ :=
  if x < 0 ∨ x ≥ (w.width : ℝ) ∨ y < 0 ∨ y ≥ (w.height : ℝ) then 0
  else w.field.getD (⌊y⌋ * (w.width : ℤ) + ⌊x⌋).toNat 0

open Classical in
/-- `WaveField.setValue(x, y, value)`: no-op outside the grid, otherwise
writes `value` at the floored flat index. -/
noncomputable def WaveField.setValue (w : WaveField) (x y value : ℝ) :
    WaveField :=
  if x < 0 ∨ x ≥ (w.width : ℝ) ∨ y < 0 ∨ y ≥ (w.height : ℝ) then w
  else { w with
    field := w.field.set (⌊y⌋ * (w.width : ℤ) + ⌊x⌋).toNat value }

open Classical in
/-- `WaveField.addWave(x, y, amplitude, phase)`: no-op outside the grid,
otherwise adds `amplitude * Math.sin(phase)` to the entry at the floored
flat index. -/
noncomputable def WaveField.addWave (w : WaveField) (x y amplitude phase : ℝ) :
    WaveField :=
  if x < 0 ∨ x ≥ (w.width : ℝ) ∨ y < 0 ∨ y ≥ (w.height : ℝ) then w
  else
    let idx := (⌊y⌋ * (w.width : ℤ) + ⌊x⌋).toNat
    { w with
      field := w.field.set idx (w.field.getD idx 0 + amplitude * Real.sin phase) }

end Part001

namespace Part002

/-- `const GRAVITY = 9.81` from the beam-balance demo. -/
def GRAVITY : ℝ := 9.81

/-- `const MAX_TILT_ANGLE = Math.PI / 6` from the beam-balance demo. -/
noncomputable def MAX_TILT_ANGLE : ℝ := Real.pi / 6

/-- The physics fields of the beam-balance demo's `state` record:
masses in grams, distances from the pivot in centimetres. -/
structure BeamState where
  mass1 : ℝ
  dist1 : ℝ
  mass2 : ℝ
  dist2 : ℝ

/-- The record returned by `calculateMoments()`. -/
structure MomentsResult where
  moment1 : ℝ
  moment2 : ℝ
  F1 : ℝ
  F2 : ℝ

/-- `calculateMoments()`: convert to SI units, then moment = m·g·d on each
side. -/
noncomputable def calculateMoments (s : BeamState) : MomentsResult :=
  let m1 := s.mass1 / 1000
  let m2 := s.mass2 / 1000
  let d1 := s.dist1 / 100
  let d2 := s.dist2 / 100
  let F1 := m1 * GRAVITY
  let F2 := m2 * GRAVITY
  ⟨F1 * d1, F2 * d2, F1, F2⟩

/-- `calculateTiltAngle()`: net moment scaled by `maxMoment = 0.5` into a
tilt angle, clamped to `[-MAX_TILT_ANGLE, MAX_TILT_ANGLE]`. -/
noncomputable def calculateTiltAngle (s : BeamState) : ℝ :=
  let r := calculateMoments s
  let netMoment := r.moment2 - r.moment1
  let maxMoment : ℝ := 0.5
  let angle := (netMoment / maxMoment) * MAX_TILT_ANGLE
  max (-MAX_TILT_ANGLE) (min MAX_TILT_ANGLE angle)

/-- The chemistry-lab demo's `state` record of step flags. -/
structure ChemState where
  zincAdded : Bool
  hclAdded : Bool
  gasCollected : Bool
  popTested : Bool
  cuoAdded : Bool
  heated : Bool
  hydrogenPassed : Bool
  waterTested : Bool
  deriving DecidableEq, Repr

/-- The chemistry-lab demo's initial state: every flag `false`. -/
def initialChemState : ChemState :=
  ⟨false, false, false, false, false, false, false, false⟩

/-- One constructor per chemistry-lab button. -/
inductive ChemEvent where
  | addZinc
  | addHCl
  | collectGas
  | popTest
  | addCuO
  | heat
  | passHydrogen
  | waterTest
  | reset
  deriving DecidableEq, Repr

/-- The flag effect of each button's click handler: each handler is guarded
exactly by the flag condition in the source, and the reset handler sets every
flag to `false`. -/
def chemStep (s : ChemState) : ChemEvent → ChemState
  | .addZinc =>
      if s.zincAdded = false then { s with zincAdded := true } else s
  | .addHCl =>
      if s.zincAdded = true ∧ s.hclAdded = false then
        { s with hclAdded := true } else s
  | .collectGas =>
      if s.hclAdded = true ∧ s.gasCollected = false then
        { s with gasCollected := true } else s
  | .popTest =>
      if s.gasCollected = true ∧ s.popTested = false then
        { s with popTested := true } else s
  | .addCuO =>
      if s.cuoAdded = false then { s with cuoAdded := true } else s
  | .heat =>
      if s.cuoAdded = true ∧ s.heated = false then
        { s with heated := true } else s
  | .passHydrogen =>
      if s.heated = true ∧ s.gasCollected = true ∧ s.hydrogenPassed = false then
        { s with hydrogenPassed := true } else s
  | .waterTest =>
      if s.hydrogenPassed = true ∧ s.waterTested = false then
        { s with waterTested := true } else s
  | .reset => initialChemState

/-- States reachable from the initial chemistry state by button clicks. -/
inductive ChemReachable : ChemState → Prop where
  | init : ChemReachable initialChemState
  | step {s : ChemState} (e : ChemEvent) :
      ChemReachable s → ChemReachable (chemStep s e)

/-- The step-ordering implications between the chemistry flags. -/
def chemInvariant (s : ChemState) : Prop :=
  (s.hclAdded = true → s.zincAdded = true) ∧
  (s.gasCollected = true → s.hclAdded = true) ∧
  (s.popTested = true → s.gasCollected = true) ∧
  (s.heated = true → s.cuoAdded = true) ∧
  (s.hydrogenPassed = true → s.heated = true ∧ s.gasCollected = true) ∧
  (s.waterTested = true → s.hydrogenPassed = true)

end Part002

/-- A concrete running pendulum state used to instantiate theorems. -/
def samplePendulumRunning : Pendulum.PendulumState :=
  ⟨50, 5, 0.1, 0.2, 0, true, 0, 0, 0, 0, -0.05, []⟩

/-- A concrete stopped pendulum state used to instantiate theorems. -/
def samplePendulumStopped : Pendulum.PendulumState :=
  ⟨50, 5, 0.3, -0.1, 0.2, false, 0, 1, 2, 3.5, 0.25, []⟩

/-- A concrete balanced beam state: 200 g · 30 cm = 300 g · 20 cm. -/
def sampleBeamBalanced : Part002.BeamState := ⟨200, 30, 300, 20⟩

/-- A concrete 2×2 wave field used to instantiate theorems. -/
def sampleWaveField : Part001.WaveField := ⟨2, 2, [1, 2, 3, 4]⟩

open Pendulum Part002 Part001 Part000

/-- C7: when `isRunning` is false, `updatePendulumPhysics` leaves every field
of the pendulum state record unchanged. -/
theorem updatePendulumPhysics_not_running (s : PendulumState) (deltaTime : ℝ)
    (h : s.isRunning = false) :
    updatePendulumPhysics s deltaTime = s := by
  simp [updatePendulumPhysics, h]

theorem updatePendulumPhysics_not_running_witness :
    updatePendulumPhysics samplePendulumStopped 0.5 = samplePendulumStopped :=
  updatePendulumPhysics_not_running samplePendulumStopped 0.5 rfl

/-- C5: on a running frame, `updatePendulumPhysics` performs one Euler step:
the new angular velocity is `ω + (-(g/L)·sin θ − damping·ω)·dt` with
`damping = 0.001` and `L = length/100`, the new angle uses the new velocity,
and the frame delta computed by `animate` is clamped to at most `0.02`. -/
theorem updatePendulumPhysics_euler_step (s : PendulumState)
    (deltaTime currentTime lastTime : ℝ) (h : s.isRunning = true) :
    (updatePendulumPhysics s deltaTime).angularVelocity =
      s.angularVelocity +
        (-(G / (s.length / 100)) * Real.sin s.angle -
          0.001 * s.angularVelocity) * deltaTime ∧
    (updatePendulumPhysics s deltaTime).angle =
      s.angle + (updatePendulumPhysics s deltaTime).angularVelocity * deltaTime ∧
    frameDelta currentTime lastTime ≤ 0.02 := by
  refine ⟨?_, ?_, min_le_right _ _⟩ <;> simp [updatePendulumPhysics, h]

theorem updatePendulumPhysics_euler_step_witness :
    (updatePendulumPhysics samplePendulumRunning 0.01).angularVelocity =
      samplePendulumRunning.angularVelocity +
        (-(G / (samplePendulumRunning.length / 100)) *
            Real.sin samplePendulumRunning.angle -
          0.001 * samplePendulumRunning.angularVelocity) * 0.01 ∧
    (updatePendulumPhysics samplePendulumRunning 0.01).angle =
      samplePendulumRunning.angle +
        (updatePendulumPhysics samplePendulumRunning 0.01).angularVelocity *
          0.01 ∧
    frameDelta 2 1.995 ≤ 0.02 :=
  updatePendulumPhysics_euler_step samplePendulumRunning 0.01 2 1.995 rfl

/-- C2: when the anticlockwise and clockwise moments are equal (equivalently
`mass1 * dist1 = mass2 * dist2`), `calculateTiltAngle` returns exactly `0`. -/
theorem calculateTiltAngle_balanced (s : BeamState)
    (h : s.mass1 * s.dist1 = s.mass2 * s.dist2) :
    calculateTiltAngle s = 0 := by
  have hpi : (0 : ℝ) ≤ Real.pi / 6 := by positivity
  have hnet : (calculateMoments s).moment2 - (calculateMoments s).moment1 = 0 := by
    simp only [calculateMoments, GRAVITY]
    linear_combination (-(9.81 / 100000 : ℝ)) * h
  simp only [calculateTiltAngle, MAX_TILT_ANGLE]
  rw [hnet, zero_div, zero_mul, min_eq_right hpi, max_eq_right (by linarith)]

theorem calculateTiltAngle_balanced_witness :
    calculateTiltAngle sampleBeamBalanced = 0 :=
  calculateTiltAngle_balanced sampleBeamBalanced (by norm_num [sampleBeamBalanced])

/-- C8: for every combination of masses and distances, the tilt angle
returned by `calculateTiltAngle` lies in `[-MAX_TILT_ANGLE, MAX_TILT_ANGLE]`. -/
theorem calculateTiltAngle_within_bounds (s : BeamState) :
    -MAX_TILT_ANGLE ≤ calculateTiltAngle s ∧
      calculateTiltAngle s ≤ MAX_TILT_ANGLE := by
  have hpi : (0 : ℝ) ≤ MAX_TILT_ANGLE := by
    simp only [MAX_TILT_ANGLE]; positivity
  constructor
  · simp only [calculateTiltAngle]
    exact le_max_left _ _
  · simp only [calculateTiltAngle]
    exact max_le (by linarith) (min_le_left _ _)

/-- C3: at a sample point coinciding with the magnet's position the distance
is zero, so both magnetism demos' `calculateFieldAt` take the guarded branch
and return `bx = 0`, `bz = 0`, `strength = 0` (in the real-number model no
NaN can arise). -/
theorem calculateFieldAt_zero_distance
    (magnetX magnetZ strengthSlider magnetRot : ℝ) :
    Part000.calculateFieldAt magnetX magnetZ strengthSlider magnetX magnetZ =
      ⟨0, 0, 0⟩ ∧
    Part001.calculateFieldAt magnetX magnetZ magnetRot magnetX magnetZ =
      ⟨0, 0, 0⟩ := by
  constructor <;>
    norm_num [Part000.calculateFieldAt, Part001.calculateFieldAt, sub_self,
      Real.sqrt_zero]

/-- C10: `WaveField` accesses are total at the grid boundary: for coordinates
outside `[0, width) × [0, height)`, `getValue` returns `0` and `setValue` and
`addWave` leave the field array unchanged. -/
theorem waveField_out_of_range (w : WaveField) (x y value amplitude phase : ℝ)
    (h : x < 0 ∨ x ≥ (w.width : ℝ) ∨ y < 0 ∨ y ≥ (w.height : ℝ)) :
    w.getValue x y = 0 ∧
    (w.setValue x y value).field = w.field ∧
    (w.addWave x y amplitude phase).field = w.field := by
  refine ⟨?_, ?_, ?_⟩ <;>
    simp only [WaveField.getValue, WaveField.setValue, WaveField.addWave,
      if_pos h]

theorem waveField_out_of_range_witness :
    sampleWaveField.getValue (-1) 0 = 0 ∧
    (sampleWaveField.setValue (-1) 0 5).field = sampleWaveField.field ∧
    (sampleWaveField.addWave (-1) 0 1 0).field = sampleWaveField.field :=
  waveField_out_of_range sampleWaveField (-1) 0 5 1 0 (Or.inl (by norm_num))

/-- C9: in every chemistry-lab state reachable from the initial state by
button clicks, the step-ordering implications between the flags hold. -/
theorem chemReachable_invariant {s : ChemState} (h : ChemReachable s) :
    chemInvariant s := by
  induction h with
  | init => simp [chemInvariant, initialChemState]
  | step e _ ih =>
    rcases ih with ⟨h1, h2, h3, h4, h5, h6⟩
    cases e <;> simp only [chemStep] <;> (try split) <;>
      simp_all [chemInvariant, initialChemState]

theorem chemReachable_invariant_witness :
    chemInvariant (chemStep initialChemState ChemEvent.addZinc) :=
  chemReachable_invariant (ChemReachable.step ChemEvent.addZinc ChemReachable.init)

theorem sum_map_line (l : List ℚ) (m c : ℚ) :
    (l.map (fun t => m * t + c)).sum = m * l.sum + (l.length : ℚ) * c := by
  induction l with
  | nil => simp
  | cons a tl ih =>
    simp only [List.map_cons, List.sum_cons, List.length_cons, ih]
    push_cast
    ring

theorem sum_zipWith_line (l : List ℚ) (m c : ℚ) :
    (List.zipWith (fun a b => a * b) l (l.map (fun t => m * t + c))).sum =
      m * (l.map (fun a => a * a)).sum + c * l.sum := by
  induction l with
  | nil => simp
  | cons a tl ih =>
    simp only [List.map_cons, List.zipWith_cons_cons, List.sum_cons, ih]
    ring

theorem sum_sq_dev (l : List ℚ) (mu : ℚ) :
    (l.map (fun t => (t - mu) * (t - mu))).sum =
      (l.map (fun a => a * a)).sum - 2 * mu * l.sum +
        (l.length : ℚ) * (mu * mu) := by
  induction l with
  | nil => simp
  | cons a tl ih =>
    simp only [List.map_cons, List.sum_cons, List.length_cons, ih]
    push_cast
    ring

theorem list_variance_pos (l : List ℚ) (a b : ℚ) (ha : a ∈ l) (hb : b ∈ l)
    (hab : a ≠ b) :
    0 < (l.length : ℚ) * (l.map (fun t => t * t)).sum - l.sum * l.sum := by
  have hn : 0 < (l.length : ℚ) := by
    have : 0 < l.length := List.length_pos.mpr (by rintro rfl; simp at ha)
    exact_mod_cast this
  obtain ⟨t, ht, htmu⟩ : ∃ t ∈ l, t ≠ l.sum / (l.length : ℚ) := by
    by_cases h : a = l.sum / (l.length : ℚ)
    · exact ⟨b, hb, fun hbmu => hab (h.trans hbmu.symm)⟩
    · exact ⟨a, ha, h⟩
  have hterm : 0 < (t - l.sum / (l.length : ℚ)) * (t - l.sum / (l.length : ℚ)) :=
    mul_self_pos.mpr (sub_ne_zero.mpr htmu)
  have hle : (t - l.sum / (l.length : ℚ)) * (t - l.sum / (l.length : ℚ)) ≤
      (l.map (fun u =>
        (u - l.sum / (l.length : ℚ)) * (u - l.sum / (l.length : ℚ)))).sum := by
    refine List.single_le_sum ?_ _ (List.mem_map_of_mem _ ht)
    intro q hq
    obtain ⟨u, _, rfl⟩ := List.mem_map.mp hq
    exact mul_self_nonneg _
  have hpos : 0 < (l.map (fun u =>
      (u - l.sum / (l.length : ℚ)) * (u - l.sum / (l.length : ℚ)))).sum :=
    lt_of_lt_of_le hterm hle
  rw [sum_sq_dev] at hpos
  have h2 := mul_pos hn hpos
  have h3 : (l.length : ℚ) * ((l.map (fun u => u * u)).sum -
      2 * (l.sum / (l.length : ℚ)) * l.sum +
      (l.length : ℚ) * (l.sum / (l.length : ℚ) * (l.sum / (l.length : ℚ)))) =
      (l.length : ℚ) * (l.map (fun u => u * u)).sum - l.sum * l.sum := by
    field_simp
    ring
  linarith

/-- C1: for lists of equal length `n ≥ 2` whose points lie exactly on the
line `y = m·x + c` and whose x values are not all equal,
`calculateLinearRegression` returns slope `m` and intercept `c` exactly. -/
theorem calculateLinearRegression_exact_line (x y : List ℚ) (m c : ℚ)
    (hlen : y.length = x.length) (hn : 2 ≤ x.length)
    (hne : ∃ a ∈ x, ∃ b ∈ x, a ≠ b)
    (hline : ∀ i : Fin y.length,
      y.get i = m * x.get ⟨i.1, hlen ▸ i.2⟩ + c) :
    (calculateLinearRegression x y).slope = m ∧
      (calculateLinearRegression x y).intercept = c := by
  obtain ⟨a, ha, b, hb, hab⟩ := hne
  have hy : y = x.map (fun t => m * t + c) := by
    apply List.ext_get
    · simpa using hlen
    · intro i h1 h2
      have h0 := hline ⟨i, h1⟩
      simp only [List.get_eq_getElem, List.getElem_map] at h0 ⊢
      exact h0
  subst hy
  have hD := list_variance_pos x a b ha hb hab
  have hDne : (x.length : ℚ) * (x.map (fun t => t * t)).sum -
      x.sum * x.sum ≠ 0 := ne_of_gt hD
  have hnne : (x.length : ℚ) ≠ 0 := by
    have : x.length ≠ 0 := by omega
    exact_mod_cast this
  have hq : ((x.length : ℚ) * (m * (x.map (fun a => a * a)).sum + c * x.sum) -
      x.sum * (m * x.sum + (x.length : ℚ) * c)) /
      ((x.length : ℚ) * (x.map (fun a => a * a)).sum - x.sum * x.sum) = m := by
    rw [div_eq_iff hDne]
    ring
  constructor
  · simp only [calculateLinearRegression, sum_zipWith_line, sum_map_line]
    exact hq
  · simp only [calculateLinearRegression, sum_zipWith_line, sum_map_line]
    rw [hq, div_eq_iff hnne]
    ring

theorem calculateLinearRegression_exact_line_witness :
    (Pendulum.calculateLinearRegression [0, 1, 2] [3, 5, 7]).slope = 2 ∧
      (Pendulum.calculateLinearRegression [0, 1, 2] [3, 5, 7]).intercept = 3 :=
  calculateLinearRegression_exact_line [0, 1, 2] [3, 5, 7] 2 3 rfl
    (by norm_num)
    ⟨0, by norm_num, 1, by norm_num, by norm_num⟩
    (by intro i; fin_cases i <;> norm_num)

theorem sqrt_scaled_sq_add_sq (A B lam : ℝ) (hlam : 0 < lam) :
    Real.sqrt ((A / lam) * (A / lam) + (B / lam) * (B / lam)) =
      Real.sqrt (A * A + B * B) / lam := by
  have h1 : (A / lam) * (A / lam) + (B / lam) * (B / lam) =
      (A * A + B * B) / (lam * lam) := by
    field_simp
  rw [h1, Real.sqrt_div (add_nonneg (mul_self_nonneg A) (mul_self_nonneg B)),
    Real.sqrt_mul_self hlam.le]

theorem sqrt_scaled_dist (dx dz lam : ℝ) (hlam : 0 ≤ lam) :
    Real.sqrt ((lam * dx) * (lam * dx) + (lam * dz) * (lam * dz)) =
      lam * Real.sqrt (dx * dx + dz * dz) := by
  rw [show (lam * dx) * (lam * dx) + (lam * dz) * (lam * dz) =
      (lam * lam) * (dx * dx + dz * dz) by ring,
    Real.sqrt_mul (mul_self_nonneg lam), Real.sqrt_mul_self hlam]

/-- C6 counterexample: with the magnet at the origin and slider value 1, the
field strength at displacement `(1, 0)` is `1/2` and at the doubled
displacement `(2, 0)` it is `1/4 = (1/2)/2`, not `(1/2)/2³`: the formula is
not an inverse-cube law in the displacement. -/
theorem calculateFieldAt_not_inverse_cube :
    (Part000.calculateFieldAt 0 0 1 1 0).strength = 1 / 2 ∧
    (Part000.calculateFieldAt 0 0 1 2 0).strength = 1 / 4 ∧
    (1 / 4 : ℝ) ≠ (1 / 2) / 2 ^ 3 := by
  refine ⟨?_, ?_, by norm_num⟩
  · simp only [Part000.calculateFieldAt]
    rw [show ((1 : ℝ) - 0) * ((1 : ℝ) - 0) + ((0 : ℝ) - 0) * ((0 : ℝ) - 0) = 1
      by norm_num]
    rw [Real.sqrt_one, if_neg (by norm_num)]
    show Real.sqrt _ = 1 / 2
    rw [Real.sqrt_eq_iff_eq_sq (by positivity) (by norm_num)]
    norm_num
  · simp only [Part000.calculateFieldAt]
    rw [show ((2 : ℝ) - 0) * ((2 : ℝ) - 0) + ((0 : ℝ) - 0) * ((0 : ℝ) - 0) = 4
      by norm_num]
    rw [show Real.sqrt 4 = 2 by
      rw [show (4 : ℝ) = 2 ^ 2 by norm_num, Real.sqrt_sq (by norm_num)]]
    rw [if_neg (by norm_num)]
    show Real.sqrt _ = 1 / 4
    rw [Real.sqrt_eq_iff_eq_sq (by positivity) (by norm_num)]
    norm_num

set_option maxHeartbeats 2000000 in
/-- C6 amended: in both magnetism demos the approximate dipole formula is
inverse-linear in the displacement: for a sample point at distance at least
`0.1` from the magnet and scale factor `λ > 1`, scaling the displacement
`(dx, dz)` by `λ` divides the returned field strength by `λ` (not `λ³`). -/
theorem calculateFieldAt_strength_scaling
    (magnetX magnetZ strengthSlider magnetRot dx dz lam : ℝ)
    (hdist : 0.1 ≤ Real.sqrt (dx * dx + dz * dz)) (hlam : 1 < lam) :
    (Part000.calculateFieldAt magnetX magnetZ strengthSlider
        (magnetX + lam * dx) (magnetZ + lam * dz)).strength =
      (Part000.calculateFieldAt magnetX magnetZ strengthSlider
        (magnetX + dx) (magnetZ + dz)).strength / lam ∧
    (Part001.calculateFieldAt magnetX magnetZ magnetRot
        (magnetX + lam * dx) (magnetZ + lam * dz)).strength =
      (Part001.calculateFieldAt magnetX magnetZ magnetRot
        (magnetX + dx) (magnetZ + dz)).strength / lam := by
  have hd0 : (0 : ℝ) < Real.sqrt (dx * dx + dz * dz) :=
    lt_of_lt_of_le (by norm_num) hdist
  have hdne : Real.sqrt (dx * dx + dz * dz) ≠ 0 := ne_of_gt hd0
  have hlam0 : (0 : ℝ) < lam := lt_trans one_pos hlam
  have hlamne : lam ≠ 0 := ne_of_gt hlam0
  have horig : ¬ Real.sqrt (dx * dx + dz * dz) < 0.1 := not_lt.mpr hdist
  have hscaled : ¬ lam * Real.sqrt (dx * dx + dz * dz) < 0.1 := by
    push_neg
    nlinarith
  constructor
  · simp only [Part000.calculateFieldAt]
    rw [show magnetX + lam * dx - magnetX = lam * dx by ring,
      show magnetZ + lam * dz - magnetZ = lam * dz by ring,
      show magnetX + dx - magnetX = dx by ring,
      show magnetZ + dz - magnetZ = dz by ring,
      sqrt_scaled_dist dx dz lam hlam0.le, if_neg hscaled, if_neg horig]
    show Real.sqrt _ = Real.sqrt _ / lam
    rw [← sqrt_scaled_sq_add_sq _ _ lam hlam0]
    congr 1
    field_simp
    ring
  · simp only [Part001.calculateFieldAt]
    set co := Real.cos (-magnetRot) with hco
    set si := Real.sin (-magnetRot) with hsi
    rw [show magnetX + lam * dx - magnetX = lam * dx by ring,
      show magnetZ + lam * dz - magnetZ = lam * dz by ring,
      show magnetX + dx - magnetX = dx by ring,
      show magnetZ + dz - magnetZ = dz by ring,
      sqrt_scaled_dist dx dz lam hlam0.le, if_neg hscaled, if_neg horig]
    show Real.sqrt _ = Real.sqrt _ / lam
    rw [← sqrt_scaled_sq_add_sq _ _ lam hlam0]
    congr 1
    set d := Real.sqrt (dx * dx + dz * dz) with hdd
    field_simp
    ring

theorem calculateFieldAt_strength_scaling_witness :
    (Part000.calculateFieldAt 0 0 1 (0 + 2 * 1) (0 + 2 * 0)).strength =
      (Part000.calculateFieldAt 0 0 1 (0 + 1) (0 + 0)).strength / 2 ∧
    (Part001.calculateFieldAt 0 0 0 (0 + 2 * 1) (0 + 2 * 0)).strength =
      (Part001.calculateFieldAt 0 0 0 (0 + 1) (0 + 0)).strength / 2 :=
  calculateFieldAt_strength_scaling 0 0 1 0 1 0 2
    (by rw [show (1 : ℝ) * 1 + 0 * 0 = 1 by norm_num, Real.sqrt_one]; norm_num)
    (by norm_num)
